import Mathlib

/-!
# PriorityQueue.h: an array-backed binary min-heap keyed by `int` priorities

Shallow embedding of the class template `PriorityQueue<E>` of
`src/PriorityQueue.h`.  The only data member, `vector<pair<int,E>> priorityQueue`,
is a `List (Int × E)`; every member function becomes a function on that list,
mutators returning the new list.  The two recursive helpers `bubbleUp` and
`sinkDown` are recursive on a fuel argument; `bubbleUp_unfold` and
`sinkDown_unfold` show that the fuel supplied is always enough, i.e. that the
embedded functions satisfy the recursion equations of the source.

Priorities are `Int`: the source only compares and copies them, so no
arithmetic on priorities can overflow.  Positions are `Nat`; the source's `int`
index arithmetic (`position * 2 + 2`) agrees with it for every vector of fewer
than `2^30` entries.
-/

namespace PriorityQueue

variable {E : Type}

/-- The data member `vector<pair<int,E> > priorityQueue` (line 25). -/
abbrev Queue (E : Type) : Type := List (Int × E)

/-- The expression `priorityQueue[i].first`.  The source only evaluates it at
positions it has checked to be in range; out of range the model yields `0`. -/
def priorityAt (q : Queue E) (i : Nat) : Int :=
  match q[i]? with
  | some entry => entry.1
  | none => 0

/-- The three assignments `temp = priorityQueue[i]; priorityQueue[i] = priorityQueue[j];
priorityQueue[j] = temp` (lines 45-47 with `i = parentPosition`, `j = position`;
lines 81-83 with `i = position`, `j = minPosition`). -/
def swapEntries (q : Queue E) (i j : Nat) : Queue E :=
  match q[i]?, q[j]? with
  | some temp, some other => (q.set i other).set j temp
  | _, _ => q

/-- Body of `bubbleUp` (lines 37-52), recursive on fuel. -/
def bubbleUpAux : Nat → Queue E → Nat → Queue E
  | 0, q, _ => q
  | fuel + 1, q, position =>
    if position = 0 then q
    else
      let parentPosition := (position - 1) / 2
      if priorityAt q parentPosition > priorityAt q position then
        bubbleUpAux fuel (swapEntries q parentPosition position) parentPosition
      else q

/-- Member `bubbleUp(position)` (lines 37-52).  Every recursive call is at a
strictly smaller position, so `position` units of fuel suffice. -/
def bubbleUp (q : Queue E) (position : Nat) : Queue E :=
  bubbleUpAux position q position

/-- The choice of `minPosition` in `sinkDown` (lines 65-77). -/
def minPositionOf (q : Queue E) (position : Nat) : Nat :=
  let leftChildPosition := position * 2 + 1
  let rightChildPosition := position * 2 + 2
  let minPosition := position
  let minPosition :=
    if priorityAt q position > priorityAt q leftChildPosition then leftChildPosition
    else minPosition
  if priorityAt q minPosition > priorityAt q rightChildPosition then rightChildPosition
  else minPosition

/-- Body of `sinkDown` (lines 57-88), recursive on fuel. -/
def sinkDownAux : Nat → Queue E → Nat → Queue E
  | 0, q, _ => q
  | fuel + 1, q, position =>
    let size := q.length
    let leftChildPosition := position * 2 + 1
    let rightChildPosition := position * 2 + 2
    if leftChildPosition ≥ size ∨ rightChildPosition ≥ size then q
    else
      let minPosition := minPositionOf q position
      if minPosition ≠ position then
        sinkDownAux fuel (swapEntries q position minPosition) minPosition
      else q

/-- Member `sinkDown(position)` (lines 57-88).  Every recursive call is at a
strictly larger position below `size`, so `size` units of fuel suffice. -/
def sinkDown (q : Queue E) (position : Nat) : Queue E :=
  sinkDownAux q.length q position

/-- The loop of `makeItHeap` (lines 95-99) from counter value `i` downwards:
`for (; i > 0; i--) sinkDown(i);`. -/
def makeItHeapLoop : Nat → Queue E → Queue E
  | 0, q => q
  | i + 1, q => makeItHeapLoop i (sinkDown q (i + 1))

/-- Member `makeItHeap()` (lines 93-101); the counter starts at `size - 1`. -/
def makeItHeap (q : Queue E) : Queue E :=
  makeItHeapLoop (q.length - 1) q

/-- Member `insert(priority, element)` (lines 108-119). -/
def insert (q : Queue E) (priority : Int) (element : E) : Queue E :=
  if priority < 0 then q
  else
    let newPair : Int × E := (priority, element)
    let q1 := q ++ [newPair]
    bubbleUp q1 (q1.length - 1)

/-- The loop of `insert_all` (lines 129-133) over the not yet visited entries. -/
def insert_allLoop : Queue E → List (Int × E) → Queue E
  | q, [] => q
  | q, entry :: rest => insert_allLoop (insert q entry.1 entry.2) rest

/-- Member `insert_all(new_elements)` (lines 125-135). -/
def insert_all (q : Queue E) (new_elements : List (Int × E)) : Queue E :=
  if new_elements.length = 0 then q
  else insert_allLoop q new_elements

/-- Member `remove_front()` (lines 141-159): the returned element and the new
stored sequence.  `E()` is `default`. -/
def remove_front [Inhabited E] (q : Queue E) : E × Queue E :=
  match q with
  | [] => (default, [])
  | front :: rest =>
    let element := front.2
    let q1 := (front :: rest).set 0 ((front :: rest).getLast (List.cons_ne_nil front rest))
    let q2 := q1.dropLast
    (element, sinkDown q2 0)

/-- Member `peek()` (lines 165-169).  On an empty vector the source reads out of
bounds; the model answers `none` there. -/
def peek (q : Queue E) : Option E :=
  match q with
  | [] => none
  | front :: _ => some front.2

/-- Member `get_all_elements()` (lines 174-186): one `push_back` per entry. -/
def get_all_elements (q : Queue E) : List E :=
  q.foldl (fun elements entry => elements ++ [entry.2]) []

/-- Member `contains(element)` (lines 192-204). -/
def contains [DecidableEq E] : Queue E → E → Bool
  | [], _ => false
  | entry :: rest, element => if entry.2 = element then true else contains rest element

/-- Member `get_priority(element)` (lines 212-224). -/
def get_priority [DecidableEq E] : Queue E → E → Int
  | [], _ => -1
  | entry :: rest, element => if entry.2 = element then entry.1 else get_priority rest element

/-- Member `get_all_priorities()` (lines 233-245): one `push_back` per entry. -/
def get_all_priorities (q : Queue E) : List Int :=
  q.foldl (fun priorities entry => priorities ++ [entry.1]) []

/-- The scan of `change_priority` (lines 253-260): every entry whose element
compares equal gets its `first` field overwritten. -/
def overwritePriorities [DecidableEq E] : Queue E → E → Int → Queue E
  | [], _, _ => []
  | entry :: rest, element, new_priority =>
    (if entry.2 = element then (new_priority, entry.2) else entry)
      :: overwritePriorities rest element new_priority

/-- Member `change_priority(element, new_priority)` (lines 251-264). -/
def change_priority [DecidableEq E] (q : Queue E) (element : E) (new_priority : Int) : Queue E :=
  makeItHeap (overwritePriorities q element new_priority)

/-- Member `size()` (lines 269-273). -/
def size (q : Queue E) : Nat := q.length

/-- Member `empty()` (lines 279-283). -/
def empty (q : Queue E) : Bool := decide (q.length = 0)

/-- The heap-order invariant: `priority(parent(i)) ≤ priority(i)` for every
non-root index `i`, with `parent(i) = (i - 1) / 2`. -/
def HeapOrdered (q : Queue E) : Prop :=
  ∀ i, i < q.length → 0 < i → priorityAt q ((i - 1) / 2) ≤ priorityAt q i

instance decidableHeapOrdered (q : Queue E) : Decidable (HeapOrdered q) := by
  unfold HeapOrdered
  infer_instance

/-- Heap order with one possible exception: the entry at `k` may be smaller than
its parent, every other entry respects its parent, and the children of `k`
respect the parent of `k`.  This is the loop invariant of `bubbleUp`. -/
def HeapExcept (q : Queue E) (k : Nat) : Prop :=
  (∀ i, i < q.length → 0 < i → i ≠ k → priorityAt q ((i - 1) / 2) ≤ priorityAt q i) ∧
  (∀ i, i < q.length → 0 < i → (i - 1) / 2 = k → 0 < k →
    priorityAt q ((k - 1) / 2) ≤ priorityAt q i)

/-- The constructor `PriorityQueue() {}` (line 32): the vector starts empty. -/
def PriorityQueue : Queue E := []

/-- The client loop `while (!q.empty()) out.push_back(q.remove_front());`,
bounded by a counter `n` of remaining iterations. -/
def drainLoop [Inhabited E] : Nat → Queue E → List E
  | 0, _ => []
  | n + 1, q =>
    if empty q then []
    else (remove_front q).1 :: drainLoop n (remove_front q).2

/-- Calls `remove_front()` until the queue is empty and collects the returned
elements in removal order.  Each call on a non-empty queue shrinks it by one
entry, so `size` iterations empty it. -/
def drainAll [Inhabited E] (q : Queue E) : List E :=
  drainLoop q.length q

/-- The mutating calls a client can make without `change_priority`. -/
inductive Op (E : Type) : Type where
  | insert (priority : Int) (element : E) : Op E
  | insert_all (new_elements : List (Int × E)) : Op E
  | remove_front : Op E

/-- The stored sequence after one client call. -/
def applyOp [Inhabited E] (q : Queue E) : Op E → Queue E
  | Op.insert priority element => insert q priority element
  | Op.insert_all new_elements => insert_all q new_elements
  | Op.remove_front => (remove_front q).2

/-- The stored sequence after a sequence of client calls on a freshly
constructed queue. -/
def runOps [Inhabited E] (ops : List (Op E)) : Queue E :=
  ops.foldl applyOp PriorityQueue

/-- Specification of `insert_all` in the words of the specification: "for each
(priority, element) pair in the given sequence, in order, perform insert",
a left fold of `insert`. -/
def insert_all_spec (q : Queue E) (new_elements : List (Int × E)) : Queue E :=
  new_elements.foldl (fun acc entry => insert acc entry.1 entry.2) q

/-- Loop invariant of `sinkDown`: heap order can only fail between `k` and its
children; every entry whose parent is not `k` respects its parent, and the
children of `k` respect the parent of `k`. -/
def HeapExceptBelow (q : Queue E) (k : Nat) : Prop :=
  (∀ i, i < q.length → 0 < i → (i - 1) / 2 ≠ k →
    priorityAt q ((i - 1) / 2) ≤ priorityAt q i) ∧
  (∀ i, i < q.length → 0 < i → (i - 1) / 2 = k → 0 < k →
    priorityAt q ((k - 1) / 2) ≤ priorityAt q i)

/-- Heap order everywhere except possibly at the last index when that index is
a lone left child, that is when the size is even. -/
def HeapOrderedExceptLoneChild (q : Queue E) : Prop :=
  ∀ i, i < q.length → 0 < i → ¬ (i = q.length - 1 ∧ q.length % 2 = 0) →
    priorityAt q ((i - 1) / 2) ≤ priorityAt q i

instance decidableHeapOrderedExceptLoneChild (q : Queue E) :
    Decidable (HeapOrderedExceptLoneChild q) := by
  unfold HeapOrderedExceptLoneChild
  infer_instance

/-- Position `j` lies in the subtree rooted at position `i`, children of `j`
being `j * 2 + 1` and `j * 2 + 2`. -/
inductive InSubtree (i : Nat) : Nat → Prop where
  | root : InSubtree i i
  | left {j : Nat} : InSubtree i j → InSubtree i (j * 2 + 1)
  | right {j : Nat} : InSubtree i j → InSubtree i (j * 2 + 2)

/-! ## Index and exchange lemmas -/

theorem priorityAt_of_lt (q : Queue E) (i : Nat) (h : i < q.length) :
    priorityAt q i = (q.get ⟨i, h⟩).1 := by
  simp [priorityAt, List.getElem?_eq_getElem h]

theorem length_swapEntries (q : Queue E) (i j : Nat) :
    (swapEntries q i j).length = q.length := by
  unfold swapEntries
  split <;> simp

theorem priorityAt_swapEntries (q : Queue E) (i j m : Nat)
    (hi : i < q.length) (hj : j < q.length) :
    priorityAt (swapEntries q i j) m =
      if m = j then priorityAt q i else if m = i then priorityAt q j else priorityAt q m := by
  unfold swapEntries priorityAt
  simp only [List.getElem?_eq_getElem hi, List.getElem?_eq_getElem hj]
  by_cases hmj : m = j
  · subst hmj
    simp [List.getElem?_set, hj]
  · by_cases hmi : m = i
    · subst hmi
      simp [List.getElem?_set, hmj, hi, Ne.symm hmj]
    · simp [List.getElem?_set, hmj, hmi, Ne.symm hmj, Ne.symm hmi]

theorem set_set_perm {α : Type} [DecidableEq α] (l : List α) (i j : Nat) (a b : α)
    (hi : i < l.length) (hj : j < l.length) (ha : l[i] = a) (hb : l[j] = b) :
    ((l.set i b).set j a).Perm l := by
  rw [List.perm_iff_count]
  intro x
  have hj2 : j < (l.set i b).length := by simpa using hj
  have hmem : a ∈ l := ha ▸ List.getElem_mem hi
  have hget : (l.set i b)[j] = b := by
    rw [List.getElem_set]
    split
    · rfl
    · exact hb
  rw [List.count_set _ _ _ _ hj2, List.count_set _ _ _ _ hi, hget, ha]
  by_cases h1 : a = x
  · have hc : 1 ≤ l.count x := List.one_le_count_iff.mpr (h1 ▸ hmem)
    by_cases h2 : b = x <;> simp [h1, h2] <;> omega
  · by_cases h2 : b = x <;> simp [h1, h2]

theorem swapEntries_perm (q : Queue E) (i j : Nat) : (swapEntries q i j).Perm q := by
  classical
  unfold swapEntries
  split
  · rename_i temp other hi hj
    obtain ⟨hi2, hti⟩ := List.getElem?_eq_some_iff.mp hi
    obtain ⟨hj2, htj⟩ := List.getElem?_eq_some_iff.mp hj
    exact set_set_perm q i j temp other hi2 hj2 hti htj
  · rfl

/-! ## The fuel is sufficient: recursion equations of the source -/

theorem bubbleUpAux_fuel (n : Nat) : ∀ (m : Nat) (q : Queue E) (position : Nat),
    position ≤ n → position ≤ m → bubbleUpAux n q position = bubbleUpAux m q position := by
  induction n with
  | zero =>
    intro m q position hn _
    have h0 : position = 0 := by omega
    subst h0
    cases m <;> simp [bubbleUpAux]
  | succ n ih =>
    intro m q position hn hm
    cases m with
    | zero =>
      have h0 : position = 0 := by omega
      subst h0
      simp [bubbleUpAux]
    | succ m =>
      simp only [bubbleUpAux]
      by_cases h0 : position = 0
      · simp [h0]
      · simp only [h0, if_false]
        split
        · exact ih m _ _ (by omega) (by omega)
        · rfl

/-- The embedded `bubbleUp` satisfies the recursion of lines 37-52. -/
theorem bubbleUp_unfold (q : Queue E) (position : Nat) :
    bubbleUp q position =
      if position = 0 then q
      else if priorityAt q ((position - 1) / 2) > priorityAt q position then
        bubbleUp (swapEntries q ((position - 1) / 2) position) ((position - 1) / 2)
      else q := by
  unfold bubbleUp
  cases position with
  | zero => simp [bubbleUpAux]
  | succ k =>
    simp only [bubbleUpAux]
    simp only [Nat.succ_ne_zero, if_false]
    split
    · exact bubbleUpAux_fuel k _ _ _ (by omega) (by omega)
    · rfl

theorem minPositionOf_cases (q : Queue E) (position : Nat) :
    minPositionOf q position = position ∨ minPositionOf q position = position * 2 + 1 ∨
      minPositionOf q position = position * 2 + 2 := by
  unfold minPositionOf
  simp only
  split <;> split <;> simp

theorem sinkDownAux_fuel (n : Nat) : ∀ (m : Nat) (q : Queue E) (position : Nat),
    q.length ≤ n + position → q.length ≤ m + position →
      sinkDownAux n q position = sinkDownAux m q position := by
  induction n with
  | zero =>
    intro m q position hn _
    cases m with
    | zero => rfl
    | succ m =>
      simp only [sinkDownAux]
      rw [if_pos (by omega)]
  | succ n ih =>
    intro m q position hn hm
    cases m with
    | zero =>
      simp only [sinkDownAux]
      rw [if_pos (by omega)]
    | succ m =>
      simp only [sinkDownAux]
      split
      · rfl
      · split
        · rename_i hne
          have hlen := length_swapEntries q position (minPositionOf q position)
          rcases minPositionOf_cases q position with h | h | h
          · exact absurd h hne
          · exact ih m _ _ (by omega) (by omega)
          · exact ih m _ _ (by omega) (by omega)
        · rfl

/-- The embedded `sinkDown` satisfies the recursion of lines 57-88. -/
theorem sinkDown_unfold (q : Queue E) (position : Nat) :
    sinkDown q position =
      if position * 2 + 1 ≥ q.length ∨ position * 2 + 2 ≥ q.length then q
      else if minPositionOf q position ≠ position then
        sinkDown (swapEntries q position (minPositionOf q position)) (minPositionOf q position)
      else q := by
  unfold sinkDown
  cases hlen : q.length with
  | zero => simp [sinkDownAux]
  | succ k =>
    simp only [sinkDownAux]
    rw [hlen]
    split
    · rfl
    · split
      · rename_i hne
        have hl := length_swapEntries q position (minPositionOf q position)
        rcases minPositionOf_cases q position with h | h | h
        · exact absurd h hne
        · exact sinkDownAux_fuel k _ _ _ (by omega) (by omega)
        · exact sinkDownAux_fuel k _ _ _ (by omega) (by omega)
      · rfl

/-! ## Length and contents are preserved by the sift operations -/

theorem length_bubbleUpAux (n : Nat) : ∀ (q : Queue E) (position : Nat),
    (bubbleUpAux n q position).length = q.length := by
  induction n with
  | zero => intro q position; rfl
  | succ n ih =>
    intro q position
    simp only [bubbleUpAux]
    split
    · rfl
    · split
      · rw [ih, length_swapEntries]
      · rfl

theorem bubbleUpAux_perm (n : Nat) : ∀ (q : Queue E) (position : Nat),
    (bubbleUpAux n q position).Perm q := by
  induction n with
  | zero => intro q position; exact List.Perm.refl _
  | succ n ih =>
    intro q position
    simp only [bubbleUpAux]
    split
    · exact List.Perm.refl _
    · split
      · exact (ih _ _).trans (swapEntries_perm _ _ _)
      · exact List.Perm.refl _

theorem length_sinkDownAux (n : Nat) : ∀ (q : Queue E) (position : Nat),
    (sinkDownAux n q position).length = q.length := by
  induction n with
  | zero => intro q position; rfl
  | succ n ih =>
    intro q position
    simp only [sinkDownAux]
    split
    · rfl
    · split
      · rw [ih, length_swapEntries]
      · rfl

theorem sinkDownAux_perm (n : Nat) : ∀ (q : Queue E) (position : Nat),
    (sinkDownAux n q position).Perm q := by
  induction n with
  | zero => intro q position; exact List.Perm.refl _
  | succ n ih =>
    intro q position
    simp only [sinkDownAux]
    split
    · exact List.Perm.refl _
    · split
      · exact (ih _ _).trans (swapEntries_perm _ _ _)
      · exact List.Perm.refl _

/-! ## Heap order: the root is a minimum, and `bubbleUp` restores the order -/

theorem heapOrdered_root_le (q : Queue E) (hq : HeapOrdered q) :
    ∀ i, i < q.length → priorityAt q 0 ≤ priorityAt q i := by
  intro i
  induction i using Nat.strong_induction_on with
  | _ i ih =>
    intro hi
    by_cases h0 : i = 0
    · subst h0
      exact le_refl _
    · have hpar : (i - 1) / 2 < i := by omega
      have h1 := ih ((i - 1) / 2) hpar (by omega)
      have h2 := hq i hi (by omega)
      exact le_trans h1 h2

theorem heapExcept_swap (q : Queue E) (k : Nat) (hk0 : 0 < k) (hk : k < q.length)
    (H : HeapExcept q k) (hgt : priorityAt q ((k - 1) / 2) > priorityAt q k) :
    HeapExcept (swapEntries q ((k - 1) / 2) k) ((k - 1) / 2) := by
  have hpk : (k - 1) / 2 < k := by omega
  have hpl : (k - 1) / 2 < q.length := by omega
  obtain ⟨H1, H2⟩ := H
  constructor
  · intro i hi hi0 hne
    rw [length_swapEntries] at hi
    rw [priorityAt_swapEntries q _ _ _ hpl hk, priorityAt_swapEntries q _ _ _ hpl hk]
    by_cases hik : i = k
    · subst hik
      rw [if_neg (by omega), if_pos rfl, if_pos rfl]
      exact le_of_lt hgt
    · rw [if_neg hik, if_neg hne]
      by_cases hp1 : (i - 1) / 2 = k
      · rw [if_pos hp1]
        exact H2 i hi hi0 hp1 hk0
      · rw [if_neg hp1]
        by_cases hp2 : (i - 1) / 2 = (k - 1) / 2
        · rw [if_pos hp2]
          have := H1 i hi hi0 hik
          rw [hp2] at this
          exact le_trans (le_of_lt hgt) this
        · rw [if_neg hp2]
          exact H1 i hi hi0 hik
  · intro i hi hi0 hpar hpk0
    rw [length_swapEntries] at hi
    rw [priorityAt_swapEntries q _ _ _ hpl hk, priorityAt_swapEntries q _ _ _ hpl hk]
    have hgp := H1 ((k - 1) / 2) hpl hpk0 (by omega)
    rw [if_neg (by omega), if_neg (by omega)]
    by_cases hik : i = k
    · rw [if_pos hik]
      exact hgp
    · rw [if_neg hik, if_neg (by omega)]
      have := H1 i hi hi0 hik
      rw [hpar] at this
      exact le_trans hgp this

theorem bubbleUpAux_heapOrdered (n : Nat) : ∀ (q : Queue E) (k : Nat),
    k ≤ n → k < q.length → HeapExcept q k → HeapOrdered (bubbleUpAux n q k) := by
  induction n with
  | zero =>
    intro q k hn _ H
    have h0 : k = 0 := by omega
    subst h0
    intro i hi hi0
    exact H.1 i hi hi0 (by omega)
  | succ n ih =>
    intro q k hn hk H
    simp only [bubbleUpAux]
    by_cases h0 : k = 0
    · rw [if_pos h0]
      subst h0
      intro i hi hi0
      exact H.1 i hi hi0 (by omega)
    · rw [if_neg h0]
      by_cases hgt : priorityAt q ((k - 1) / 2) > priorityAt q k
      · rw [if_pos hgt]
        apply ih
        · omega
        · rw [length_swapEntries]
          omega
        · exact heapExcept_swap q k (by omega) hk H hgt
      · rw [if_neg hgt]
        intro i hi hi0
        by_cases hik : i = k
        · subst hik
          exact not_lt.mp hgt
        · exact H.1 i hi hi0 hik

theorem priorityAt_append_left (q : Queue E) (x : Int × E) (i : Nat) (hi : i < q.length) :
    priorityAt (q ++ [x]) i = priorityAt q i := by
  unfold priorityAt
  rw [List.getElem?_append_left hi]

theorem heapExcept_push (q : Queue E) (x : Int × E) (hq : HeapOrdered q) :
    HeapExcept (q ++ [x]) q.length := by
  constructor
  · intro i hi hi0 hne
    have hlt : i < q.length := by
      simp only [List.length_append, List.length_singleton] at hi
      omega
    rw [priorityAt_append_left q x i hlt, priorityAt_append_left q x _ (by omega)]
    exact hq i hlt hi0
  · intro i hi _ hpar _
    simp only [List.length_append, List.length_singleton] at hi
    omega

theorem length_sinkDown (q : Queue E) (position : Nat) :
    (sinkDown q position).length = q.length :=
  length_sinkDownAux _ _ _

theorem sinkDown_perm (q : Queue E) (position : Nat) : (sinkDown q position).Perm q :=
  sinkDownAux_perm _ _ _

theorem moveLast_perm (front : Int × E) (rest : List (Int × E)) :
    (((front :: rest).set 0
      ((front :: rest).getLast (List.cons_ne_nil front rest))).dropLast).Perm rest := by
  cases rest with
  | nil => simp
  | cons second more =>
    have hne : second :: more ≠ [] := List.cons_ne_nil _ _
    have hsplit := List.dropLast_append_getLast hne
    have hlast : (front :: second :: more).getLast (List.cons_ne_nil _ _) =
        (second :: more).getLast hne := by simp
    rw [hlast]
    simp only [List.set_cons_zero]
    rw [List.dropLast_cons_of_ne_nil hne]
    have : ((second :: more).getLast hne :: (second :: more).dropLast).Perm
        ((second :: more).dropLast ++ [(second :: more).getLast hne]) :=
      (List.perm_append_singleton _ _).symm
    rw [hsplit] at this
    exact this

theorem length_remove_front [Inhabited E] (front : Int × E) (rest : List (Int × E)) :
    (remove_front (front :: rest)).2.length = rest.length :=
  ((sinkDown_perm _ _).trans (moveLast_perm front rest)).length_eq

/-- The client loop needs no more than `size` iterations: any larger bound
gives the same list of removed elements. -/
theorem drainLoop_fuel [Inhabited E] (n : Nat) : ∀ (m : Nat) (q : Queue E),
    q.length ≤ n → q.length ≤ m → drainLoop n q = drainLoop m q := by
  induction n with
  | zero =>
    intro m q hn _
    have hnil : q = [] := List.length_eq_zero.mp (by omega)
    subst hnil
    cases m <;> simp [drainLoop, empty]
  | succ n ih =>
    intro m q hn hm
    cases q with
    | nil => cases m <;> simp [drainLoop, empty]
    | cons front rest =>
      cases m with
      | zero => simp at hm
      | succ m =>
        have hlen := length_remove_front front rest
        simp only [List.length_cons] at hn hm
        simp only [drainLoop, empty, List.length_cons, Nat.succ_ne_zero, decide_False,
          Bool.false_eq_true, if_false]
        rw [ih m _ (by omega) (by omega)]

/-! ## The claims -/

/-- C1: on a non-empty queue whose stored sequence is heap-ordered,
`remove_front()` returns the element of the entry at index 0, `peek()` returns
that same element, and the priority of that entry is at most the priority of
every stored entry. -/
theorem remove_front_returns_root_minimum [Inhabited E] (q : Queue E) (hne : q ≠ [])
    (hq : HeapOrdered q) :
    ∃ front, q[0]? = some front ∧ (remove_front q).1 = front.2 ∧
      peek q = some (remove_front q).1 ∧ ∀ entry ∈ q, front.1 ≤ entry.1 := by
  cases q with
  | nil => exact absurd rfl hne
  | cons front rest =>
    refine ⟨front, by simp, rfl, rfl, ?_⟩
    intro entry hmem
    obtain ⟨i, hi, hget⟩ := List.getElem_of_mem hmem
    have hroot := heapOrdered_root_le _ hq i hi
    rw [priorityAt_of_lt _ i hi, priorityAt_of_lt _ 0 (by simp)] at hroot
    simp only [List.get_eq_getElem] at hroot
    rw [hget] at hroot
    exact hroot

theorem remove_front_returns_root_minimum_witness :
    ([(1, 10), (2, 20), (3, 30)] : Queue Nat) ≠ [] ∧
    HeapOrdered ([(1, 10), (2, 20), (3, 30)] : Queue Nat) ∧
    ∃ front, ([(1, 10), (2, 20), (3, 30)] : Queue Nat)[0]? = some front ∧
      (remove_front ([(1, 10), (2, 20), (3, 30)] : Queue Nat)).1 = front.2 ∧
      peek ([(1, 10), (2, 20), (3, 30)] : Queue Nat) =
        some (remove_front ([(1, 10), (2, 20), (3, 30)] : Queue Nat)).1 ∧
      ∀ entry ∈ ([(1, 10), (2, 20), (3, 30)] : Queue Nat), front.1 ≤ entry.1 :=
  ⟨by decide, by decide,
    remove_front_returns_root_minimum [(1, 10), (2, 20), (3, 30)] (by decide) (by decide)⟩

/-- C2 (evaluation at the failing input): inserting priorities `[1,2,3]` in that
order into an empty queue and draining it with `remove_front()` yields the
entries in the order `[1,3,2]`, which is not non-decreasing; each element is
its own priority.  The example of the specification, priorities `[5,1,4,2,3]`,
does drain as `[1,2,3,4,5]`. -/
theorem drain_after_inserts_not_sorted :
    drainAll (insert_all (PriorityQueue : Queue Int) [(1, 1), (2, 2), (3, 3)]) = [1, 3, 2] ∧
    drainAll (insert_all (PriorityQueue : Queue Int)
      [(5, 5), (1, 1), (4, 4), (2, 2), (3, 3)]) = [1, 2, 3, 4, 5] := by
  decide

/-- C3: `insert` preserves the heap-order invariant: if the stored sequence is
heap-ordered then so is the stored sequence after `insert(priority, element)`,
for every priority (in particular every priority `≥ 0`) and every element. -/
theorem insert_preserves_heapOrdered (q : Queue E) (priority : Int) (element : E)
    (hq : HeapOrdered q) : HeapOrdered (insert q priority element) := by
  unfold insert
  split
  · exact hq
  · simp only [List.length_append, List.length_singleton, Nat.add_sub_cancel]
    exact bubbleUpAux_heapOrdered _ _ _ (le_refl _) (by simp) (heapExcept_push q _ hq)

theorem insert_preserves_heapOrdered_witness :
    HeapOrdered ([(1, 10), (5, 20), (3, 30)] : Queue Nat) ∧
    HeapOrdered (insert ([(1, 10), (5, 20), (3, 30)] : Queue Nat) 2 40) :=
  ⟨by decide, insert_preserves_heapOrdered [(1, 10), (5, 20), (3, 30)] 2 40 (by decide)⟩

/-- C4 (evaluation at the failing input): three inserts on an empty queue store
`[(1,10),(2,20),(3,30)]`, which is heap-ordered; `remove_front()` then returns
`10` and leaves the stored sequence `[(3,30),(2,20)]`, which is not
heap-ordered. -/
theorem remove_front_breaks_heapOrdered :
    insert (insert (insert (PriorityQueue : Queue Nat) 1 10) 2 20) 3 30 =
      [(1, 10), (2, 20), (3, 30)] ∧
    HeapOrdered ([(1, 10), (2, 20), (3, 30)] : Queue Nat) ∧
    remove_front ([(1, 10), (2, 20), (3, 30)] : Queue Nat) = (10, [(3, 30), (2, 20)]) ∧
    ¬ HeapOrdered (remove_front ([(1, 10), (2, 20), (3, 30)] : Queue Nat)).2 := by
  decide

/-- C5 (evaluation at the failing input): with `A = 0` and `B = 1`, after
`insert(10, A)` and `insert(20, B)` on an empty queue the stored sequence is
heap-ordered and contains `B`; after `change_priority(B, 1)` it is
`[(10,A),(1,B)]`, and the next `remove_front()` returns `A`, not `B`. -/
theorem change_priority_then_remove_front_returns_old_root :
    HeapOrdered (insert (insert (PriorityQueue : Queue Nat) 10 0) 20 1) ∧
    contains (insert (insert (PriorityQueue : Queue Nat) 10 0) 20 1) 1 = true ∧
    change_priority (insert (insert (PriorityQueue : Queue Nat) 10 0) 20 1) 1 1 =
      [(10, 0), (1, 1)] ∧
    (remove_front
      (change_priority (insert (insert (PriorityQueue : Queue Nat) 10 0) 20 1) 1 1)).1 = 0 := by
  decide

/-- C6 (evaluation at the failing input): two inserts on an empty queue store
`[(10,0),(20,1)]`, which is heap-ordered; the stored sequence after
`change_priority(1, 1)` is `[(10,0),(1,1)]`, which is not heap-ordered. -/
theorem change_priority_breaks_heapOrdered :
    insert (insert (PriorityQueue : Queue Nat) 10 0) 20 1 = [(10, 0), (20, 1)] ∧
    HeapOrdered ([(10, 0), (20, 1)] : Queue Nat) ∧
    change_priority ([(10, 0), (20, 1)] : Queue Nat) 1 1 = [(10, 0), (1, 1)] ∧
    ¬ HeapOrdered (change_priority ([(10, 0), (20, 1)] : Queue Nat) 1 1) := by
  decide

/-- C7: for every queue, every priority `p ≥ 0` and every element `e`, after
`insert(p, e)` the size is exactly one larger and the multiset of stored
entries is the previous multiset plus the single entry `(p, e)`. -/
theorem insert_adds_exactly_one_entry (q : Queue E) (priority : Int) (element : E)
    (hp : 0 ≤ priority) :
    size (insert q priority element) = size q + 1 ∧
    (Multiset.ofList (insert q priority element) : Multiset (Int × E)) =
      (priority, element) ::ₘ Multiset.ofList q := by
  have hnot : ¬ priority < 0 := not_lt.mpr hp
  unfold insert size
  rw [if_neg hnot]
  constructor
  · simp only [bubbleUp, length_bubbleUpAux, List.length_append, List.length_singleton]
  · rw [Multiset.cons_coe, Multiset.coe_eq_coe]
    exact (bubbleUpAux_perm _ _ _).trans (List.perm_append_singleton _ _)

theorem insert_adds_exactly_one_entry_witness :
    (0 : Int) ≤ 0 ∧
    size (insert ([(1, 10), (5, 20), (3, 30)] : Queue Nat) 0 40) =
      size ([(1, 10), (5, 20), (3, 30)] : Queue Nat) + 1 ∧
    (Multiset.ofList (insert ([(1, 10), (5, 20), (3, 30)] : Queue Nat) 0 40) :
        Multiset (Int × Nat)) =
      (0, 40) ::ₘ Multiset.ofList ([(1, 10), (5, 20), (3, 30)] : Queue Nat) :=
  ⟨by decide, insert_adds_exactly_one_entry [(1, 10), (5, 20), (3, 30)] 0 40 (by decide)⟩

/-- C8: for every non-empty queue, after `remove_front()` the size is exactly
one smaller and the previous multiset of stored entries is the new multiset
plus the entry that was at index 0, so every other entry is still stored with
its priority and element unchanged. -/
theorem remove_front_removes_exactly_root_entry [Inhabited E] (q : Queue E) (hne : q ≠ []) :
    ∃ front, q[0]? = some front ∧
      size (remove_front q).2 + 1 = size q ∧
      (Multiset.ofList q : Multiset (Int × E)) =
        front ::ₘ Multiset.ofList (remove_front q).2 := by
  cases q with
  | nil => exact absurd rfl hne
  | cons front rest =>
    have hperm : ((remove_front (front :: rest)).2).Perm rest :=
      (sinkDown_perm _ _).trans (moveLast_perm front rest)
    refine ⟨front, by simp, ?_, ?_⟩
    · unfold size
      rw [hperm.length_eq]
      rfl
    · rw [Multiset.cons_coe, Multiset.coe_eq_coe]
      exact (hperm.cons front).symm

theorem remove_front_removes_exactly_root_entry_witness :
    ([(1, 10), (5, 20), (3, 30)] : Queue Nat) ≠ [] ∧
    ∃ front, ([(1, 10), (5, 20), (3, 30)] : Queue Nat)[0]? = some front ∧
      size (remove_front ([(1, 10), (5, 20), (3, 30)] : Queue Nat)).2 + 1 =
        size ([(1, 10), (5, 20), (3, 30)] : Queue Nat) ∧
      (Multiset.ofList ([(1, 10), (5, 20), (3, 30)] : Queue Nat) : Multiset (Int × Nat)) =
        front ::ₘ Multiset.ofList (remove_front ([(1, 10), (5, 20), (3, 30)] : Queue Nat)).2 :=
  ⟨by decide, remove_front_removes_exactly_root_entry [(1, 10), (5, 20), (3, 30)] (by decide)⟩

/-- C9: for every queue, every priority `p < 0` and every element `x`,
`insert(p, x)` leaves the stored sequence unchanged: the size is unchanged,
`contains(y)` answers as before for every `y`, and `contains(x)` is false
afterwards when `x` was not stored before. -/
theorem insert_negative_priority_is_noop [DecidableEq E] (q : Queue E) (priority : Int)
    (x : E) (hp : priority < 0) :
    insert q priority x = q ∧
    size (insert q priority x) = size q ∧
    (∀ y, contains (insert q priority x) y = contains q y) ∧
    (contains q x = false → contains (insert q priority x) x = false) := by
  have hq : insert q priority x = q := by
    unfold insert
    rw [if_pos hp]
  rw [hq]
  exact ⟨rfl, rfl, fun _ => rfl, fun h => h⟩

theorem insert_negative_priority_is_noop_witness :
    (-1 : Int) < 0 ∧
    insert ([(1, 10), (5, 20)] : Queue Nat) (-1) 30 = [(1, 10), (5, 20)] ∧
    size (insert ([(1, 10), (5, 20)] : Queue Nat) (-1) 30) =
      size ([(1, 10), (5, 20)] : Queue Nat) ∧
    (∀ y, contains (insert ([(1, 10), (5, 20)] : Queue Nat) (-1) 30) y =
      contains ([(1, 10), (5, 20)] : Queue Nat) y) ∧
    (contains ([(1, 10), (5, 20)] : Queue Nat) 30 = false →
      contains (insert ([(1, 10), (5, 20)] : Queue Nat) (-1) 30) 30 = false) :=
  ⟨by decide, insert_negative_priority_is_noop [(1, 10), (5, 20)] (-1) 30 (by decide)⟩

/-- C10: on a freshly constructed queue `empty()` is true, `size()` is 0,
`get_priority(x)` is `-1` for every `x`, and `remove_front()` returns the
default value of `E` and leaves the queue empty with size 0. -/
theorem fresh_queue_sentinels [DecidableEq E] [Inhabited E] :
    empty (PriorityQueue : Queue E) = true ∧
    size (PriorityQueue : Queue E) = 0 ∧
    (∀ x : E, get_priority (PriorityQueue : Queue E) x = -1) ∧
    (remove_front (PriorityQueue : Queue E)).1 = default ∧
    empty (remove_front (PriorityQueue : Queue E)).2 = true ∧
    size (remove_front (PriorityQueue : Queue E)).2 = 0 :=
  ⟨rfl, rfl, fun _ => rfl, rfl, rfl, rfl⟩

/-! ## The inspection functions as maps over the stored sequence -/

theorem foldl_push_snd (q : Queue E) : ∀ acc : List E,
    q.foldl (fun elements entry => elements ++ [entry.2]) acc = acc ++ q.map Prod.snd := by
  induction q with
  | nil => intro acc; simp
  | cons entry rest ih => intro acc; simp [ih]

theorem foldl_push_fst (q : Queue E) : ∀ acc : List Int,
    q.foldl (fun priorities entry => priorities ++ [entry.1]) acc = acc ++ q.map Prod.fst := by
  induction q with
  | nil => intro acc; simp
  | cons entry rest ih => intro acc; simp [ih]

theorem get_all_elements_eq_map (q : Queue E) : get_all_elements q = q.map Prod.snd := by
  unfold get_all_elements
  rw [foldl_push_snd]
  rfl

theorem get_all_priorities_eq_map (q : Queue E) : get_all_priorities q = q.map Prod.fst := by
  unfold get_all_priorities
  rw [foldl_push_fst]
  rfl

theorem contains_eq_true_iff [DecidableEq E] (q : Queue E) (e : E) :
    contains q e = true ↔ ∃ entry ∈ q, entry.2 = e := by
  induction q with
  | nil => simp [contains]
  | cons entry rest ih =>
    simp only [contains, List.mem_cons, exists_eq_or_imp]
    by_cases h : entry.2 = e
    · simp [h]
    · simp [h, ih]

theorem get_priority_of_not_contains [DecidableEq E] (q : Queue E) (e : E)
    (h : ∀ entry ∈ q, entry.2 ≠ e) : get_priority q e = -1 := by
  induction q with
  | nil => rfl
  | cons entry rest ih =>
    simp only [get_priority]
    rw [if_neg (h entry (List.mem_cons_self _ _))]
    exact ih (fun x hx => h x (List.mem_cons_of_mem _ hx))

theorem get_priority_mem [DecidableEq E] (q : Queue E) (e : E)
    (h : ∃ entry ∈ q, entry.2 = e) : ∃ entry ∈ q, entry.2 = e ∧ get_priority q e = entry.1 := by
  induction q with
  | nil => simp at h
  | cons entry rest ih =>
    simp only [get_priority]
    by_cases hm : entry.2 = e
    · exact ⟨entry, List.mem_cons_self _ _, hm, by rw [if_pos hm]⟩
    · rw [if_neg hm]
      obtain ⟨x, hx, hxe⟩ := h
      rcases List.mem_cons.mp hx with hhead | htail
      · exact absurd (hhead ▸ hxe) hm
      · obtain ⟨y, hy, hye, hyp⟩ := ih ⟨x, htail, hxe⟩
        exact ⟨y, List.mem_cons_of_mem _ hy, hye, hyp⟩

/-! ## `change_priority`: the scan and the rebuild -/

theorem length_makeItHeapLoop (i : Nat) : ∀ q : Queue E,
    (makeItHeapLoop i q).length = q.length := by
  induction i with
  | zero => intro q; rfl
  | succ i ih =>
    intro q
    simp only [makeItHeapLoop]
    rw [ih, length_sinkDown]

theorem makeItHeapLoop_perm (i : Nat) : ∀ q : Queue E, (makeItHeapLoop i q).Perm q := by
  induction i with
  | zero => intro q; exact List.Perm.refl _
  | succ i ih =>
    intro q
    simp only [makeItHeapLoop]
    exact (ih _).trans (sinkDown_perm _ _)

theorem change_priority_perm [DecidableEq E] (q : Queue E) (e : E) (p : Int) :
    (change_priority q e p).Perm (overwritePriorities q e p) :=
  makeItHeapLoop_perm _ _

theorem length_overwritePriorities [DecidableEq E] (q : Queue E) (e : E) (p : Int) :
    (overwritePriorities q e p).length = q.length := by
  induction q with
  | nil => rfl
  | cons entry rest ih => simp [overwritePriorities, ih]

theorem map_snd_overwritePriorities [DecidableEq E] (q : Queue E) (e : E) (p : Int) :
    (overwritePriorities q e p).map Prod.snd = q.map Prod.snd := by
  induction q with
  | nil => rfl
  | cons entry rest ih =>
    simp only [overwritePriorities, List.map_cons, ih]
    split <;> rfl

theorem filter_ne_overwritePriorities [DecidableEq E] (q : Queue E) (e : E) (p : Int) :
    (overwritePriorities q e p).filter (fun entry => decide (entry.2 ≠ e)) =
      q.filter (fun entry => decide (entry.2 ≠ e)) := by
  induction q with
  | nil => rfl
  | cons entry rest ih =>
    simp only [overwritePriorities]
    by_cases h : entry.2 = e
    · rw [if_pos h]
      simpa [h] using ih
    · rw [if_neg h]
      simpa [h] using ih

theorem overwritePriorities_match [DecidableEq E] (q : Queue E) (e : E) (p : Int) :
    ∀ entry ∈ overwritePriorities q e p, entry.2 = e → entry.1 = p := by
  induction q with
  | nil => intro entry h; simp [overwritePriorities] at h
  | cons head rest ih =>
    intro entry hmem he
    simp only [overwritePriorities, List.mem_cons] at hmem
    rcases hmem with hhead | htail
    · by_cases h : head.2 = e
      · rw [if_pos h] at hhead
        rw [hhead]
      · rw [if_neg h] at hhead
        exact absurd (hhead ▸ he) h
    · exact ih entry htail he

theorem get_priority_first_index [DecidableEq E] (e : E) : ∀ (q : Queue E) (i : Nat)
    (entry : Int × E), q[i]? = some entry → entry.2 = e →
    (∀ j, j < i → ∀ x, q[j]? = some x → x.2 ≠ e) → get_priority q e = entry.1 := by
  intro q
  induction q with
  | nil => intro i entry h; simp at h
  | cons head rest ih =>
    intro i entry hget he hfirst
    cases i with
    | zero =>
      simp only [List.getElem?_cons_zero, Option.some.injEq] at hget
      subst hget
      simp only [get_priority]
      rw [if_pos he]
    | succ k =>
      have hhead : head.2 ≠ e := hfirst 0 (by omega) head (by simp)
      simp only [get_priority]
      rw [if_neg hhead]
      simp only [List.getElem?_cons_succ] at hget
      apply ih k entry hget he
      intro j hj x hx
      exact hfirst (j + 1) (by omega) x (by simpa using hx)

theorem insert_all_eq_loop (q : Queue E) (l : List (Int × E)) :
    insert_all q l = insert_allLoop q l := by
  unfold insert_all
  cases l with
  | nil => rfl
  | cons entry rest => simp

theorem insert_allLoop_eq_foldl (l : List (Int × E)) : ∀ q : Queue E,
    insert_allLoop q l = l.foldl (fun acc entry => insert acc entry.1 entry.2) q := by
  induction l with
  | nil => intro q; rfl
  | cons entry rest ih => intro q; simp only [insert_allLoop, List.foldl_cons, ih]

theorem insert_allLoop_filter (l : List (Int × E)) : ∀ q : Queue E,
    insert_allLoop q l = insert_allLoop q (l.filter (fun entry => decide (0 ≤ entry.1))) := by
  induction l with
  | nil => intro q; rfl
  | cons entry rest ih =>
    intro q
    by_cases h : 0 ≤ entry.1
    · rw [List.filter_cons_of_pos (by simpa using h)]
      simp only [insert_allLoop]
      exact ih _
    · rw [List.filter_cons_of_neg (by simpa using h)]
      simp only [insert_allLoop]
      have hskip : insert q entry.1 entry.2 = q := by
        unfold insert
        rw [if_pos (not_le.mp h)]
      rw [hskip]
      exact ih _

/-! ## Frame: `sinkDown(position)` leaves every smaller position untouched -/

theorem getElem?_swapEntries_of_ne (q : Queue E) (a b j : Nat) (ha : j ≠ a) (hb : j ≠ b) :
    (swapEntries q a b)[j]? = q[j]? := by
  unfold swapEntries
  split
  · rw [List.getElem?_set_ne (Ne.symm hb), List.getElem?_set_ne (Ne.symm ha)]
  · rfl

theorem getElem?_swapEntries_left (q : Queue E) (a b : Nat) (ha : a < q.length)
    (hb : b < q.length) (hab : a ≠ b) : (swapEntries q a b)[a]? = q[b]? := by
  unfold swapEntries
  rw [List.getElem?_eq_getElem ha, List.getElem?_eq_getElem hb]
  simp only
  rw [List.getElem?_set_ne (Ne.symm hab), List.getElem?_set_self ha]

theorem getElem?_sinkDownAux_lt (n : Nat) : ∀ (q : Queue E) (position j : Nat),
    j < position → (sinkDownAux n q position)[j]? = q[j]? := by
  induction n with
  | zero => intro q position j _; rfl
  | succ n ih =>
    intro q position j hj
    simp only [sinkDownAux]
    split
    · rfl
    · split
      · rename_i hne
        rcases minPositionOf_cases q position with h | h | h
        · exact absurd h hne
        · rw [ih _ _ j (by omega), getElem?_swapEntries_of_ne q _ _ j (by omega) (by omega)]
        · rw [ih _ _ j (by omega), getElem?_swapEntries_of_ne q _ _ j (by omega) (by omega)]
      · rfl

theorem getElem?_sinkDown_lt (q : Queue E) (position j : Nat) (hj : j < position) :
    (sinkDown q position)[j]? = q[j]? :=
  getElem?_sinkDownAux_lt _ _ _ _ hj

theorem getElem?_makeItHeapLoop_zero (i : Nat) : ∀ q : Queue E,
    (makeItHeapLoop i q)[0]? = q[0]? := by
  induction i with
  | zero => intro q; rfl
  | succ i ih =>
    intro q
    simp only [makeItHeapLoop]
    rw [ih, getElem?_sinkDown_lt q (i + 1) 0 (by omega)]

theorem peek_eq_getElem? (q : Queue E) : peek q = (q[0]?).map Prod.snd := by
  cases q <;> simp [peek]

theorem peek_overwritePriorities [DecidableEq E] (q : Queue E) (e : E) (p : Int) :
    peek (overwritePriorities q e p) = peek q := by
  cases q with
  | nil => rfl
  | cons entry rest =>
    simp only [overwritePriorities, peek]
    split <;> rfl

theorem minPositionOf_spec (q : Queue E) (position : Nat) :
    priorityAt q (minPositionOf q position) ≤ priorityAt q position ∧
    priorityAt q (minPositionOf q position) ≤ priorityAt q (position * 2 + 1) ∧
    priorityAt q (minPositionOf q position) ≤ priorityAt q (position * 2 + 2) ∧
    (minPositionOf q position ≠ position →
      priorityAt q (minPositionOf q position) < priorityAt q position) := by
  unfold minPositionOf
  simp only
  by_cases h1 : priorityAt q position > priorityAt q (position * 2 + 1)
  · rw [if_pos h1]
    by_cases h2 : priorityAt q (position * 2 + 1) > priorityAt q (position * 2 + 2)
    · rw [if_pos h2]
      refine ⟨?_, ?_, ?_, ?_⟩ <;> (try intro _) <;> linarith
    · rw [if_neg h2]
      refine ⟨?_, ?_, ?_, ?_⟩ <;> (try intro _) <;> linarith
  · rw [if_neg h1]
    by_cases h2 : priorityAt q position > priorityAt q (position * 2 + 2)
    · rw [if_pos h2]
      refine ⟨?_, ?_, ?_, ?_⟩ <;> (try intro _) <;> linarith
    · rw [if_neg h2]
      refine ⟨le_refl _, ?_, ?_, ?_⟩
      · linarith
      · linarith
      · intro hne
        exact absurd rfl hne

theorem inSubtree_trans {i m j : Nat} (him : InSubtree i m) (hmj : InSubtree m j) :
    InSubtree i j := by
  induction hmj with
  | root => exact him
  | left _ ih => exact InSubtree.left ih
  | right _ ih => exact InSubtree.right ih

theorem getElem?_sinkDownAux_outside (n : Nat) : ∀ (q : Queue E) (position j : Nat),
    ¬ InSubtree position j → (sinkDownAux n q position)[j]? = q[j]? := by
  induction n with
  | zero => intro q position j _; rfl
  | succ n ih =>
    intro q position j hout
    simp only [sinkDownAux]
    split
    · rfl
    · split
      · rename_i hne
        have hchild : InSubtree position (minPositionOf q position) := by
          rcases minPositionOf_cases q position with h | h | h
          · exact absurd h hne
          · rw [h]
            exact InSubtree.left InSubtree.root
          · rw [h]
            exact InSubtree.right InSubtree.root
        have hj1 : j ≠ position := fun h => hout (h ▸ InSubtree.root)
        have hj2 : j ≠ minPositionOf q position := fun h => hout (h ▸ hchild)
        rw [ih _ _ j (fun h => hout (inSubtree_trans hchild h)),
          getElem?_swapEntries_of_ne q _ _ j hj1 hj2]
      · rfl

/-! ## The claims, continued -/

/-- C11: for every queue, element `e` and integer `p`, after
`change_priority(e, p)` the size is unchanged, the multiset of stored elements
is unchanged, every stored entry whose element equals `e` has priority `p`, and
the multiset of entries whose element differs from `e` is unchanged. -/
theorem change_priority_overwrites_every_match [DecidableEq E] (q : Queue E) (e : E)
    (p : Int) :
    size (change_priority q e p) = size q ∧
    (Multiset.ofList (get_all_elements (change_priority q e p)) : Multiset E) =
      Multiset.ofList (get_all_elements q) ∧
    (∀ entry ∈ change_priority q e p, entry.2 = e → entry.1 = p) ∧
    (Multiset.ofList ((change_priority q e p).filter (fun entry => decide (entry.2 ≠ e))) :
        Multiset (Int × E)) =
      Multiset.ofList (q.filter (fun entry => decide (entry.2 ≠ e))) := by
  have hperm := change_priority_perm q e p
  refine ⟨?_, ?_, ?_, ?_⟩
  · unfold size
    rw [hperm.length_eq, length_overwritePriorities]
  · rw [get_all_elements_eq_map, get_all_elements_eq_map, Multiset.coe_eq_coe,
      ← map_snd_overwritePriorities q e p]
    exact hperm.map _
  · intro entry hmem he
    exact overwritePriorities_match q e p entry (hperm.mem_iff.mp hmem) he
  · rw [Multiset.coe_eq_coe, ← filter_ne_overwritePriorities q e p]
    exact hperm.filter _

theorem change_priority_overwrites_every_match_witness :
    size (change_priority ([(1, 0), (2, 0), (3, 1)] : Queue Nat) 0 5) =
      size ([(1, 0), (2, 0), (3, 1)] : Queue Nat) ∧
    (Multiset.ofList (get_all_elements (change_priority ([(1, 0), (2, 0), (3, 1)] : Queue Nat) 0 5)) :
        Multiset Nat) =
      Multiset.ofList (get_all_elements ([(1, 0), (2, 0), (3, 1)] : Queue Nat)) ∧
    (∀ entry ∈ change_priority ([(1, 0), (2, 0), (3, 1)] : Queue Nat) 0 5,
      entry.2 = 0 → entry.1 = 5) ∧
    (Multiset.ofList ((change_priority ([(1, 0), (2, 0), (3, 1)] : Queue Nat) 0 5).filter
        (fun entry => decide (entry.2 ≠ 0))) : Multiset (Int × Nat)) =
      Multiset.ofList (([(1, 0), (2, 0), (3, 1)] : Queue Nat).filter
        (fun entry => decide (entry.2 ≠ 0))) :=
  change_priority_overwrites_every_match [(1, 0), (2, 0), (3, 1)] 0 5

/-- C12 (evaluation at the failing input): three inserts on an empty queue store
`[(1,0),(2,0),(3,1)]`, in which element `0` occurs twice; `change_priority(0, 5)`
leaves `[(5,0),(5,0),(3,1)]`: both matching entries have priority 5, not only
the one that had the lowest priority. -/
theorem change_priority_changes_all_duplicates :
    insert (insert (insert (PriorityQueue : Queue Nat) 1 0) 2 0) 3 1 =
      [(1, 0), (2, 0), (3, 1)] ∧
    change_priority ([(1, 0), (2, 0), (3, 1)] : Queue Nat) 0 5 =
      [(5, 0), (5, 0), (3, 1)] ∧
    ¬ ((2, 0) ∈ change_priority ([(1, 0), (2, 0), (3, 1)] : Queue Nat) 0 5) := by
  decide

/-- C13: `get_priority(e)` is the priority of the entry at the smallest storage
index `i` with `get_all_elements()[i] == e`, and `-1` when no stored element
equals `e`. -/
theorem get_priority_first_match [DecidableEq E] (q : Queue E) (e : E) :
    (∀ i : Nat, (get_all_elements q)[i]? = some e →
      (∀ j : Nat, j < i → (get_all_elements q)[j]? ≠ some e) →
      (∃ entry, q[i]? = some entry ∧ get_priority q e = entry.1) ∧
        (get_all_priorities q)[i]? = some (get_priority q e)) ∧
    (e ∉ get_all_elements q → get_priority q e = -1) := by
  rw [get_all_elements_eq_map, get_all_priorities_eq_map]
  constructor
  · intro i hi hfirst
    rw [List.getElem?_map] at hi
    obtain ⟨entry, hentry, he⟩ : ∃ entry, q[i]? = some entry ∧ entry.2 = e := by
      cases hopt : q[i]? with
      | none => rw [hopt] at hi; simp at hi
      | some entry =>
        rw [hopt] at hi
        exact ⟨entry, rfl, by simpa using hi⟩
    have hp : get_priority q e = entry.1 := by
      apply get_priority_first_index e q i entry hentry he
      intro j hj x hx hxe
      apply hfirst j hj
      rw [List.getElem?_map, hx]
      simp [hxe]
    refine ⟨⟨entry, hentry, hp⟩, ?_⟩
    rw [List.getElem?_map, hentry, hp]
    rfl
  · intro hnot
    apply get_priority_of_not_contains
    intro entry hmem he
    exact hnot (List.mem_map.mpr ⟨entry, hmem, he⟩)

theorem get_priority_first_match_witness :
    ((∃ entry, ([(1, 9), (5, 7), (2, 7)] : Queue Nat)[1]? = some entry ∧
        get_priority ([(1, 9), (5, 7), (2, 7)] : Queue Nat) 7 = entry.1) ∧
      (get_all_priorities ([(1, 9), (5, 7), (2, 7)] : Queue Nat))[1]? =
        some (get_priority ([(1, 9), (5, 7), (2, 7)] : Queue Nat) 7)) ∧
    get_priority ([(1, 9), (5, 7), (2, 7)] : Queue Nat) 8 = -1 :=
  ⟨(get_priority_first_match [(1, 9), (5, 7), (2, 7)] 7).1 1 (by decide) (by decide),
    (get_priority_first_match [(1, 9), (5, 7), (2, 7)] 8).2 (by decide)⟩

/-- C14 (evaluation at the failing input): three inserts on an empty queue store
`[(1,9),(5,7),(2,7)]`, which is heap-ordered and holds element `7` with
priorities 5 and 2; `get_priority(7)` returns 5, not the minimum 2. -/
theorem get_priority_not_minimum_of_duplicates :
    insert (insert (insert (PriorityQueue : Queue Nat) 1 9) 5 7) 2 7 =
      [(1, 9), (5, 7), (2, 7)] ∧
    HeapOrdered ([(1, 9), (5, 7), (2, 7)] : Queue Nat) ∧
    get_priority ([(1, 9), (5, 7), (2, 7)] : Queue Nat) 7 = 5 ∧
    (2, 7) ∈ ([(1, 9), (5, 7), (2, 7)] : Queue Nat) := by
  decide

/-- C16: for every queue state `get_all_elements()` and `get_all_priorities()`
both have length `size()`, at every valid index `i` the pair
`(get_all_priorities()[i], get_all_elements()[i])` is the entry stored at
position `i`, and `contains(e)` is true exactly when `e` occurs in
`get_all_elements()`. -/
theorem snapshots_are_correlated [DecidableEq E] (q : Queue E) :
    (get_all_elements q).length = size q ∧
    (get_all_priorities q).length = size q ∧
    (∀ i, i < size q → ∃ entry, q[i]? = some entry ∧
      (get_all_priorities q)[i]? = some entry.1 ∧
      (get_all_elements q)[i]? = some entry.2) ∧
    (∀ e, contains q e = true ↔ e ∈ get_all_elements q) := by
  rw [get_all_elements_eq_map, get_all_priorities_eq_map]
  unfold size
  refine ⟨by simp, by simp, ?_, ?_⟩
  · intro i hi
    refine ⟨q[i], List.getElem?_eq_getElem hi, ?_, ?_⟩
    · rw [List.getElem?_map, List.getElem?_eq_getElem hi]
      rfl
    · rw [List.getElem?_map, List.getElem?_eq_getElem hi]
      rfl
  · intro e
    rw [contains_eq_true_iff, List.mem_map]

theorem snapshots_are_correlated_witness :
    (get_all_elements ([(1, 9), (5, 7), (2, 7)] : Queue Nat)).length =
      size ([(1, 9), (5, 7), (2, 7)] : Queue Nat) ∧
    (get_all_priorities ([(1, 9), (5, 7), (2, 7)] : Queue Nat)).length =
      size ([(1, 9), (5, 7), (2, 7)] : Queue Nat) ∧
    (∀ i, i < size ([(1, 9), (5, 7), (2, 7)] : Queue Nat) →
      ∃ entry, ([(1, 9), (5, 7), (2, 7)] : Queue Nat)[i]? = some entry ∧
        (get_all_priorities ([(1, 9), (5, 7), (2, 7)] : Queue Nat))[i]? = some entry.1 ∧
        (get_all_elements ([(1, 9), (5, 7), (2, 7)] : Queue Nat))[i]? = some entry.2) ∧
    (∀ e, contains ([(1, 9), (5, 7), (2, 7)] : Queue Nat) e = true ↔
      e ∈ get_all_elements ([(1, 9), (5, 7), (2, 7)] : Queue Nat)) :=
  snapshots_are_correlated [(1, 9), (5, 7), (2, 7)]

/-- C17: for every queue and every list of pairs, `insert_all(list)` stores
exactly what a left fold of `insert` over the list stores; pairs with a negative
priority are skipped, and on the empty list the queue is unchanged. -/
theorem insert_all_refines_fold (q : Queue E) (new_elements : List (Int × E)) :
    insert_all q new_elements = insert_all_spec q new_elements ∧
    insert_all q new_elements =
      insert_all_spec q (new_elements.filter (fun entry => decide (0 ≤ entry.1))) ∧
    insert_all q [] = q := by
  refine ⟨?_, ?_, rfl⟩
  · rw [insert_all_eq_loop, insert_allLoop_eq_foldl]
    rfl
  · rw [insert_all_eq_loop, insert_allLoop_filter, insert_allLoop_eq_foldl]
    rfl

/-- C18: `sinkDown(position)` leaves the stored sequence unchanged whenever the
right-child index `2*position+2` is out of range, whatever the left child holds;
with both children in range it leaves the sequence unchanged when neither child
has a strictly smaller priority, and otherwise exchanges `position` with a child
`m` of strictly smaller priority that is minimal among the two children, and
continues from `m`. -/
theorem sinkDown_needs_both_children (q : Queue E) (position : Nat) :
    (position * 2 + 2 ≥ q.length → sinkDown q position = q) ∧
    (position * 2 + 2 < q.length →
      priorityAt q position ≤ priorityAt q (position * 2 + 1) →
      priorityAt q position ≤ priorityAt q (position * 2 + 2) →
      sinkDown q position = q) ∧
    (position * 2 + 2 < q.length →
      (priorityAt q (position * 2 + 1) < priorityAt q position ∨
        priorityAt q (position * 2 + 2) < priorityAt q position) →
      ∃ m, (m = position * 2 + 1 ∨ m = position * 2 + 2) ∧
        priorityAt q m < priorityAt q position ∧
        priorityAt q m ≤ priorityAt q (position * 2 + 1) ∧
        priorityAt q m ≤ priorityAt q (position * 2 + 2) ∧
        sinkDown q position = sinkDown (swapEntries q position m) m ∧
        (sinkDown q position)[position]? = q[m]?) := by
  have hspec := minPositionOf_spec q position
  refine ⟨?_, ?_, ?_⟩
  · intro hright
    rw [sinkDown_unfold, if_pos (Or.inr hright)]
  · intro hright hl hr
    have hmin : minPositionOf q position = position := by
      by_contra hne
      have := hspec.2.2.2 hne
      rcases minPositionOf_cases q position with h | h | h
      · exact hne h
      · rw [h] at this
        linarith
      · rw [h] at this
        linarith
    rw [sinkDown_unfold, if_neg (by omega), hmin]
    simp
  · intro hright hsmaller
    have hne : minPositionOf q position ≠ position := by
      intro heq
      have h1 := hspec.2.1
      have h2 := hspec.2.2.1
      rw [heq] at h1 h2
      rcases hsmaller with h | h <;> linarith
    have hchild : minPositionOf q position = position * 2 + 1 ∨
        minPositionOf q position = position * 2 + 2 := by
      rcases minPositionOf_cases q position with h | h | h
      · exact absurd h hne
      · exact Or.inl h
      · exact Or.inr h
    refine ⟨minPositionOf q position, hchild, hspec.2.2.2 hne, hspec.2.1, hspec.2.2.1, ?_, ?_⟩
    · rw [sinkDown_unfold, if_neg (by omega), if_pos hne]
    · rw [sinkDown_unfold, if_neg (by omega), if_pos hne,
        getElem?_sinkDown_lt _ _ _ (by omega),
        getElem?_swapEntries_left q _ _ (by omega) (by omega) (Ne.symm hne)]

theorem sinkDown_needs_both_children_witness :
    sinkDown ([(3, 30), (2, 20)] : Queue Nat) 0 = [(3, 30), (2, 20)] ∧
    sinkDown ([(1, 10), (2, 20), (3, 30)] : Queue Nat) 0 = [(1, 10), (2, 20), (3, 30)] ∧
    ∃ m, (m = 0 * 2 + 1 ∨ m = 0 * 2 + 2) ∧
      priorityAt ([(3, 30), (2, 20), (1, 10)] : Queue Nat) m <
        priorityAt ([(3, 30), (2, 20), (1, 10)] : Queue Nat) 0 ∧
      priorityAt ([(3, 30), (2, 20), (1, 10)] : Queue Nat) m ≤
        priorityAt ([(3, 30), (2, 20), (1, 10)] : Queue Nat) (0 * 2 + 1) ∧
      priorityAt ([(3, 30), (2, 20), (1, 10)] : Queue Nat) m ≤
        priorityAt ([(3, 30), (2, 20), (1, 10)] : Queue Nat) (0 * 2 + 2) ∧
      sinkDown ([(3, 30), (2, 20), (1, 10)] : Queue Nat) 0 =
        sinkDown (swapEntries ([(3, 30), (2, 20), (1, 10)] : Queue Nat) 0 m) m ∧
      (sinkDown ([(3, 30), (2, 20), (1, 10)] : Queue Nat) 0)[0]? =
        ([(3, 30), (2, 20), (1, 10)] : Queue Nat)[m]? :=
  ⟨(sinkDown_needs_both_children [(3, 30), (2, 20)] 0).1 (by decide),
    (sinkDown_needs_both_children [(1, 10), (2, 20), (3, 30)] 0).2.1
      (by decide) (by decide) (by decide),
    (sinkDown_needs_both_children [(3, 30), (2, 20), (1, 10)] 0).2.2
      (by decide) (by decide)⟩

/-- C20: `change_priority` never moves the root entry: on a non-empty queue the
element stored at index 0, the value `peek()` returns, is the same after
`change_priority(e, p)` as before; and on every queue `sinkDown(i)` leaves every
position outside the subtree rooted at `i` untouched. -/
theorem change_priority_keeps_root_element [DecidableEq E] (q : Queue E) (e : E) (p : Int)
    (hne : q ≠ []) :
    (∃ front, q[0]? = some front ∧ peek q = some front.2 ∧
      peek (change_priority q e p) = some front.2) ∧
    (∀ (stored : Queue E) (i j : Nat), ¬ InSubtree i j →
      (sinkDown stored i)[j]? = stored[j]?) := by
  refine ⟨?_, fun stored i j hout => getElem?_sinkDownAux_outside _ stored i j hout⟩
  cases q with
  | nil => exact absurd rfl hne
  | cons front rest =>
    refine ⟨front, by simp, rfl, ?_⟩
    unfold change_priority makeItHeap
    rw [peek_eq_getElem?, getElem?_makeItHeapLoop_zero, ← peek_eq_getElem?,
      peek_overwritePriorities]
    rfl

theorem change_priority_keeps_root_element_witness :
    ([(10, 0), (20, 1), (30, 2)] : Queue Nat) ≠ [] ∧
    (∃ front, ([(10, 0), (20, 1), (30, 2)] : Queue Nat)[0]? = some front ∧
      peek ([(10, 0), (20, 1), (30, 2)] : Queue Nat) = some front.2 ∧
      peek (change_priority ([(10, 0), (20, 1), (30, 2)] : Queue Nat) 2 1) = some front.2) ∧
    (∀ (stored : Queue Nat) (i j : Nat), ¬ InSubtree i j →
      (sinkDown stored i)[j]? = stored[j]?) :=
  ⟨by decide, change_priority_keeps_root_element [(10, 0), (20, 1), (30, 2)] 2 1 (by decide)⟩

/-! ## What `sinkDown` restores: heap order up to a lone left child -/

theorem heapExceptBelow_swap (q : Queue E) (k m : Nat) (hright : k * 2 + 2 < q.length)
    (hm : m = k * 2 + 1 ∨ m = k * 2 + 2)
    (hlt : priorityAt q m < priorityAt q k)
    (hl : priorityAt q m ≤ priorityAt q (k * 2 + 1))
    (hr : priorityAt q m ≤ priorityAt q (k * 2 + 2))
    (H : HeapExceptBelow q k) : HeapExceptBelow (swapEntries q k m) m := by
  have hkl : k < q.length := by omega
  have hml : m < q.length := by omega
  have hpm : (m - 1) / 2 = k := by omega
  obtain ⟨H1, H2⟩ := H
  constructor
  · intro i hi hi0 hpar
    rw [length_swapEntries] at hi
    rw [priorityAt_swapEntries q _ _ _ hkl hml, priorityAt_swapEntries q _ _ _ hkl hml]
    rw [if_neg hpar]
    by_cases him : i = m
    · rw [if_pos him, him, hpm, if_pos rfl]
      exact le_of_lt hlt
    · rw [if_neg him]
      by_cases hik : i = k
      · rw [if_pos hik, if_neg (by omega)]
        have := H2 m hml (by omega) hpm (by omega)
        rw [hik]
        exact this
      · rw [if_neg hik]
        by_cases hpk : (i - 1) / 2 = k
        · rw [if_pos hpk]
          have hcase : i = k * 2 + 1 ∨ i = k * 2 + 2 := by omega
          rcases hcase with h | h
          · rw [h]
            exact hl
          · rw [h]
            exact hr
        · rw [if_neg hpk]
          exact H1 i hi hi0 hpk
  · intro i hi hi0 hpar _
    rw [length_swapEntries] at hi
    rw [priorityAt_swapEntries q _ _ _ hkl hml, priorityAt_swapEntries q _ _ _ hkl hml]
    rw [hpm, if_neg (by omega), if_pos rfl, if_neg (by omega), if_neg (by omega)]
    have := H1 i hi hi0 (by omega)
    rw [hpar] at this
    exact this

theorem sinkDownAux_exceptLoneChild (n : Nat) : ∀ (q : Queue E) (k : Nat),
    q.length ≤ n + k → HeapExceptBelow q k →
      HeapOrderedExceptLoneChild (sinkDownAux n q k) := by
  induction n with
  | zero =>
    intro q k hn H i hi hi0 _
    exact H.1 i hi hi0 (by
      simp only [sinkDownAux] at hi
      omega)
  | succ n ih =>
    intro q k hn H
    simp only [sinkDownAux]
    by_cases hguard : k * 2 + 1 ≥ q.length ∨ k * 2 + 2 ≥ q.length
    · rw [if_pos hguard]
      intro i hi hi0 hlast
      exact H.1 i hi hi0 (by omega)
    · rw [if_neg hguard]
      have hspec := minPositionOf_spec q k
      by_cases hne : minPositionOf q k ≠ k
      · rw [if_pos hne]
        have hchild : minPositionOf q k = k * 2 + 1 ∨ minPositionOf q k = k * 2 + 2 := by
          rcases minPositionOf_cases q k with h | h | h
          · exact absurd h hne
          · exact Or.inl h
          · exact Or.inr h
        apply ih
        · rw [length_swapEntries]
          omega
        · exact heapExceptBelow_swap q k _ (by omega) hchild (hspec.2.2.2 hne)
            hspec.2.1 hspec.2.2.1 H
      · rw [if_neg hne]
        have heq : minPositionOf q k = k := not_not.mp hne
        have h1 := hspec.2.1
        have h2 := hspec.2.2.1
        rw [heq] at h1 h2
        intro i hi hi0 _
        by_cases hpk : (i - 1) / 2 = k
        · have hcase : i = k * 2 + 1 ∨ i = k * 2 + 2 := by omega
          rw [hpk]
          rcases hcase with h | h
          · rw [h]
            exact h1
          · rw [h]
            exact h2
        · exact H.1 i hi hi0 hpk

theorem priorityAt_moveLast (front : Int × E) (rest : List (Int × E)) (j : Nat)
    (hj0 : 0 < j) (hj : j < rest.length) :
    priorityAt (((front :: rest).set 0
      ((front :: rest).getLast (List.cons_ne_nil front rest))).dropLast) j =
      priorityAt (front :: rest) j := by
  unfold priorityAt
  rw [List.getElem?_dropLast, if_pos (by simp; omega), List.getElem?_set_ne (by omega)]

theorem heapExceptBelow_moveLast (front : Int × E) (rest : List (Int × E))
    (hq : HeapOrdered (front :: rest)) :
    HeapExceptBelow (((front :: rest).set 0
      ((front :: rest).getLast (List.cons_ne_nil front rest))).dropLast) 0 := by
  constructor
  · intro i hi hi0 hpar
    have hlen : i < rest.length := by
      simp only [List.length_dropLast, List.length_set, List.length_cons] at hi
      omega
    rw [priorityAt_moveLast front rest i hi0 hlen,
      priorityAt_moveLast front rest _ (by omega) (by omega)]
    exact hq i (by simp; omega) hi0
  · intro i _ _ _ h0
    exact absurd h0 (lt_irrefl 0)

/-- C19: for every heap-ordered non-empty queue, the stored sequence after
`remove_front()` respects `priority(parent(i)) ≤ priority(i)` at every non-root
index `i` except possibly at the last index when the new size is even; when the
size before removal is even or 1 the result is fully heap-ordered. -/
theorem remove_front_heapOrdered_except_lone_child [Inhabited E] (q : Queue E)
    (hne : q ≠ []) (hq : HeapOrdered q) :
    (∀ i, i < (remove_front q).2.length → 0 < i →
      ¬ (i = (remove_front q).2.length - 1 ∧ (remove_front q).2.length % 2 = 0) →
      priorityAt (remove_front q).2 ((i - 1) / 2) ≤ priorityAt (remove_front q).2 i) ∧
    (q.length % 2 = 0 ∨ q.length = 1 → HeapOrdered (remove_front q).2) := by
  cases q with
  | nil => exact absurd rfl hne
  | cons front rest =>
    have hmain : HeapOrderedExceptLoneChild (remove_front (front :: rest)).2 :=
      sinkDownAux_exceptLoneChild _ _ 0 (by omega) (heapExceptBelow_moveLast front rest hq)
    refine ⟨hmain, ?_⟩
    intro hsize i hi hi0
    have hlen := length_remove_front front rest
    apply hmain i hi hi0
    simp only [List.length_cons] at hsize
    omega

theorem remove_front_heapOrdered_except_lone_child_witness :
    ([(1, 10), (2, 20), (3, 30), (4, 40)] : Queue Nat) ≠ [] ∧
    HeapOrdered ([(1, 10), (2, 20), (3, 30), (4, 40)] : Queue Nat) ∧
    (∀ i, i < (remove_front ([(1, 10), (2, 20), (3, 30), (4, 40)] : Queue Nat)).2.length →
      0 < i →
      ¬ (i = (remove_front ([(1, 10), (2, 20), (3, 30), (4, 40)] : Queue Nat)).2.length - 1 ∧
        (remove_front ([(1, 10), (2, 20), (3, 30), (4, 40)] : Queue Nat)).2.length % 2 = 0) →
      priorityAt (remove_front ([(1, 10), (2, 20), (3, 30), (4, 40)] : Queue Nat)).2
          ((i - 1) / 2) ≤
        priorityAt (remove_front ([(1, 10), (2, 20), (3, 30), (4, 40)] : Queue Nat)).2 i) ∧
    (([(1, 10), (2, 20), (3, 30), (4, 40)] : Queue Nat).length % 2 = 0 ∨
        ([(1, 10), (2, 20), (3, 30), (4, 40)] : Queue Nat).length = 1 →
      HeapOrdered (remove_front ([(1, 10), (2, 20), (3, 30), (4, 40)] : Queue Nat)).2) :=
  ⟨by decide, by decide,
    remove_front_heapOrdered_except_lone_child [(1, 10), (2, 20), (3, 30), (4, 40)]
      (by decide) (by decide)⟩

/-! ## Reachable queues store no negative priority -/

theorem insert_nonneg (q : Queue E) (priority : Int) (element : E)
    (hq : ∀ entry ∈ q, 0 ≤ entry.1) : ∀ entry ∈ insert q priority element, 0 ≤ entry.1 := by
  unfold insert
  by_cases hp : priority < 0
  · rw [if_pos hp]
    exact hq
  · rw [if_neg hp]
    intro entry hmem
    have hmem2 := (bubbleUpAux_perm _ _ _).mem_iff.mp hmem
    rcases List.mem_append.mp hmem2 with h | h
    · exact hq entry h
    · rw [List.mem_singleton.mp h]
      exact not_lt.mp hp

theorem insert_allLoop_nonneg (l : List (Int × E)) : ∀ q : Queue E,
    (∀ entry ∈ q, 0 ≤ entry.1) → ∀ entry ∈ insert_allLoop q l, 0 ≤ entry.1 := by
  induction l with
  | nil => intro q hq; exact hq
  | cons head rest ih =>
    intro q hq
    simp only [insert_allLoop]
    exact ih _ (insert_nonneg q _ _ hq)

theorem remove_front_nonneg [Inhabited E] (q : Queue E) (hq : ∀ entry ∈ q, 0 ≤ entry.1) :
    ∀ entry ∈ (remove_front q).2, 0 ≤ entry.1 := by
  cases q with
  | nil => intro entry h; simp [remove_front] at h
  | cons front rest =>
    intro entry hmem
    have hperm : ((remove_front (front :: rest)).2).Perm rest :=
      (sinkDown_perm _ _).trans (moveLast_perm front rest)
    exact hq entry (List.mem_cons_of_mem _ (hperm.mem_iff.mp hmem))

theorem applyOp_nonneg [Inhabited E] (q : Queue E) (op : Op E)
    (hq : ∀ entry ∈ q, 0 ≤ entry.1) : ∀ entry ∈ applyOp q op, 0 ≤ entry.1 := by
  cases op with
  | insert priority element => exact insert_nonneg q priority element hq
  | insert_all new_elements =>
    simp only [applyOp]
    rw [insert_all_eq_loop]
    exact insert_allLoop_nonneg new_elements q hq
  | remove_front => exact remove_front_nonneg q hq

theorem foldl_applyOp_nonneg [Inhabited E] (ops : List (Op E)) : ∀ q : Queue E,
    (∀ entry ∈ q, 0 ≤ entry.1) → ∀ entry ∈ ops.foldl applyOp q, 0 ≤ entry.1 := by
  induction ops with
  | nil => intro q hq; exact hq
  | cons op rest ih =>
    intro q hq
    simp only [List.foldl_cons]
    exact ih _ (applyOp_nonneg q op hq)

/-- C15: every queue reached from the empty queue by a sequence of `insert`,
`insert_all` and `remove_front` calls stores only priorities `≥ 0`; hence on
every such queue `get_priority(e) == -1` holds exactly when `contains(e)` is
false. -/
theorem reachable_priorities_nonneg [DecidableEq E] [Inhabited E] (ops : List (Op E)) :
    (∀ entry ∈ runOps ops, 0 ≤ entry.1) ∧
    (∀ e : E, get_priority (runOps ops) e = -1 ↔ contains (runOps ops) e = false) := by
  have hnonneg : ∀ entry ∈ runOps ops, 0 ≤ entry.1 :=
    foldl_applyOp_nonneg ops PriorityQueue (by intro entry h; simp [PriorityQueue] at h)
  refine ⟨hnonneg, ?_⟩
  intro e
  constructor
  · intro hminus
    by_contra hcont
    have htrue : contains (runOps ops) e = true := by simpa using hcont
    obtain ⟨entry, hmem, _, hp⟩ :=
      get_priority_mem (runOps ops) e ((contains_eq_true_iff _ _).mp htrue)
    have := hnonneg entry hmem
    rw [← hp, hminus] at this
    exact absurd this (by decide)
  · intro hfalse
    apply get_priority_of_not_contains
    intro entry hmem he
    have htrue := (contains_eq_true_iff (runOps ops) e).mpr ⟨entry, hmem, he⟩
    rw [hfalse] at htrue
    exact absurd htrue (by decide)

theorem reachable_priorities_nonneg_witness :
    (∀ entry ∈ runOps ([Op.insert 3 7, Op.insert (-2) 8, Op.insert_all [(1, 9), (-5, 4)],
        Op.remove_front] : List (Op Nat)), 0 ≤ entry.1) ∧
    (∀ e : Nat,
      get_priority (runOps ([Op.insert 3 7, Op.insert (-2) 8,
        Op.insert_all [(1, 9), (-5, 4)], Op.remove_front] : List (Op Nat))) e = -1 ↔
      contains (runOps ([Op.insert 3 7, Op.insert (-2) 8,
        Op.insert_all [(1, 9), (-5, 4)], Op.remove_front] : List (Op Nat))) e = false) :=
  reachable_priorities_nonneg
    [Op.insert 3 7, Op.insert (-2) 8, Op.insert_all [(1, 9), (-5, 4)], Op.remove_front]

end PriorityQueue
